import Mathlib

/-!
A shallow embedding of the chained hash map implemented in `src/hashmap.c`
(the CMap), together with proofs of its specification properties.

Modelling conventions:
* A C string key is modelled as a `List Nat` of its (non-zero) character
  codes; `unsigned long` arithmetic in the hash function is modelled as
  `Nat` arithmetic reduced modulo `2 ^ 64` at every operation, which is
  exactly the C wrap-around semantics.
* A node of the map (one `malloc`-ed block holding next-pointer, key copy
  and value bytes) is modelled as an `Entry`: the opaque value buffer of
  `sizeOfElements` bytes is abstracted as a value of an arbitrary type `V`
  copied wholesale, and the chain links become the order of the `List`
  that models one bucket's chain.
* The cleanup callback is modelled by making the mutating operations
  return, next to the new map, the list of values the callback was invoked
  on, in invocation order.
* `findKey`-style pointer walking is modelled by structural recursion over
  the bucket's chain list; `cmap_next`'s recovery of a node from the raw
  key pointer is modelled by locating the entry with that key in its
  bucket, which coincides with the C behaviour whenever the token is a key
  actually present in the map (keys are unique).
-/

set_option maxHeartbeats 1000000

namespace CMapC

/-- A key: the character codes of a C string. -/
abbrev Key := List Nat

/-- One stored key/value association (one node of a bucket chain). -/
structure Entry (V : Type) where
  key : Key
  value : V
  deriving DecidableEq, Repr

/-- The `struct CMapImplementation` state: bucket count, element count and
the bucket array, each bucket being the chain of its entries in link
order. (`sizeOfElements` is abstracted away by the value type `V`; the
cleanup function pointer is modelled by the returned cleanup lists.) -/
structure CMap (V : Type) where
  numberOfBuckets : Nat
  numberOfElements : Nat
  buckets : List (List (Entry V))
  deriving DecidableEq, Repr

variable {V : Type}

/-- The magic multiplier of `hash` in `src/hashmap.c` (line 51). -/
def MULTIPLIER : Nat := 2630849305

/-- The modulus of C `unsigned long` arithmetic (64-bit). -/
def U64 : Nat := 2 ^ 64

/-- `hash` from `src/hashmap.c` lines 49-56: fold
`hashcode = hashcode * MULTIPLIER + s[i]` over the characters in
`unsigned long` (wrap-around) arithmetic, then reduce modulo the bucket
count. -/
def hash (s : Key) (nbuckets : Nat) : Nat :=
  (s.foldl (fun hashcode c => (hashcode * MULTIPLIER + c) % U64) 0) % nbuckets

/-- The accumulation of `hash` performed in unbounded arithmetic (no
64-bit wrap). Used to state the characterisation of `hash`. -/
def polyAcc (s : Key) : Nat :=
  s.foldl (fun hashcode c => hashcode * MULTIPLIER + c) 0

/-- Boolean test `strcmp(key of e, k) == 0`. -/
def keyIs (k : Key) (e : Entry V) : Bool := decide (e.key = k)

/-- Whether the chain holds an entry for `k`: the `foundKey` out-parameter
of `findKey` (`src/hashmap.c` lines 159-185). -/
def containsKey (k : Key) (chain : List (Entry V)) : Bool := chain.any (keyIs k)

/-- `getBucketAtIndex`: the chain stored in bucket `i`. -/
def getBucket (m : CMap V) (i : Nat) : List (Entry V) := m.buckets.getD i []

/-- `cmap_create` (`src/hashmap.c` lines 78-108): `capacity_hint` buckets
(the `DEFAULT_CAPACITY` 199 when the hint is 0), all empty, zero
elements. -/
def cmap_create (V : Type) (capacity_hint : Nat) : CMap V :=
  let n := if capacity_hint = 0 then 199 else capacity_hint
  { numberOfBuckets := n
    numberOfElements := 0
    buckets := List.replicate n [] }

/-- All entries reachable by walking every bucket's chain, in bucket order
then chain order — the traversal order used by `cmap_dispose` and the
rehash loop. -/
def allEntries (m : CMap V) : List (Entry V) := m.buckets.flatten

/-- The keys of all reachable entries, in the same order. -/
def allKeys (m : CMap V) : List Key := (allEntries m).map Entry.key

/-- `cmap_count` (`src/hashmap.c` lines 137-140). -/
def cmap_count (m : CMap V) : Nat := m.numberOfElements

/-- The effect of `cmap_put` on the bucket chain of the key, with the list
of values handed to the cleanup function: overwrite the value of the first
entry whose key matches (cleaning the old value), or, when no entry
matches, append the new node where `findKey` stopped — the end of the
chain. -/
def putChain (k : Key) (v : V) : List (Entry V) → List (Entry V) × List V
  | [] => ([⟨k, v⟩], [])
  | e :: rest =>
    if keyIs k e then ({ e with value := v } :: rest, [e.value])
    else
      let r := putChain k v rest
      (e :: r.1, r.2)

/-- The rehash loop body's placement of a moved node (`src/hashmap.c`
lines 213-222): `findKey` walks the target chain of the new layout; the
slot it returns is overwritten with the moved node, whose next pointer is
then set to NULL. When no entry of the chain matches the moved key (the
only case arising from a map with unique keys) this appends the node at
the end of the chain; on a (never occurring) duplicate key it would
truncate the chain at the match. -/
def placeNode (e : Entry V) : List (Entry V) → List (Entry V)
  | [] => [e]
  | e2 :: rest => if keyIs e.key e2 then [e] else e2 :: placeNode e rest

/-- One iteration of the rehash rewiring loop: place the moved entry into
the bucket of its key under the new bucket count. -/
def rehashInsert (m : CMap V) (e : Entry V) : CMap V :=
  let i := hash e.key m.numberOfBuckets
  { m with buckets := m.buckets.set i (placeNode e (getBucket m i)) }

/-- `checkForRehash` (`src/hashmap.c` lines 188-228). The C code compares
`(double)numberOfElements / numberOfBuckets > LOAD_FACTOR` with
`LOAD_FACTOR = 1.5`; both counts are C `int`s, hence exact doubles, and
the quotient differs from 3/2 by at least `1/(2*numberOfBuckets)`, far
more than the rounding error of the double division near 1.5, so the
comparison is exactly the rational comparison
`numberOfElements / numberOfBuckets > 3/2`, i.e.
`3 * numberOfBuckets < 2 * numberOfElements`. On trigger the bucket array
is rebuilt at `3 * old + 1` buckets and every entry is re-placed, walking
the old buckets in index order and each chain front to back. -/
def checkForRehash (m : CMap V) : CMap V :=
  if 3 * m.numberOfBuckets < 2 * m.numberOfElements then
    let n2 := m.numberOfBuckets * 3 + 1
    let cleared : CMap V :=
      { m with numberOfBuckets := n2, buckets := List.replicate n2 [] }
    (allEntries m).foldl rehashInsert cleared
  else m

/-- The body of `cmap_put` before the final `checkForRehash` call: update
the key's bucket chain via `putChain` and increment the count only when
the key was absent. Returns the updated map and the values handed to the
cleanup function. -/
def putRaw (m : CMap V) (k : Key) (v : V) : CMap V × List V :=
  let i := hash k m.numberOfBuckets
  let chain := getBucket m i
  let r := putChain k v chain
  ({ m with
      buckets := m.buckets.set i r.1
      numberOfElements :=
        if containsKey k chain then m.numberOfElements
        else m.numberOfElements + 1 }, r.2)

/-- `cmap_put` (`src/hashmap.c` lines 230-249): overwrite or insert, then
check for a rehash. -/
def cmap_put (m : CMap V) (k : Key) (v : V) : CMap V × List V :=
  let r := putRaw m k v
  (checkForRehash r.1, r.2)

/-- `cmap_get` (`src/hashmap.c` lines 251-258): the value of the first
entry with a matching key in the key's bucket, or the NULL sentinel. -/
def cmap_get (m : CMap V) (k : Key) : Option V :=
  ((getBucket m (hash k m.numberOfBuckets)).find? (keyIs k)).map Entry.value

/-- The effect of `cmap_remove` on the key's bucket chain once `findKey`
reported the key present, exactly as the source behaves. When the match is
at the head of the chain (`prevNodePointer == NULL`) the entry is spliced
out correctly. In the non-head path (`src/hashmap.c` lines 279-285)
`prevNodePointer` is `findKey`'s `prevKeyBucket`, which lags one step
behind the slot of the match: it is the slot that HOLDS the predecessor
node, not the predecessor's next field. Hence
`*prevNodePointer = *(void**)(*toRemovePointer)` writes the matched
node's successor over the slot holding the predecessor, so the
predecessor entry leaves the chain together with the matched one (the
matched node is cleaned up and freed via `*toRemovePointer`; the
predecessor is merely unlinked and leaked, its value never cleaned).
Concretely, with the first match at position `p ≥ 1`, the chain becomes
`take (p-1) ++ drop (p+1)` and cleanup fires once, on the matched entry's
value. -/
def removeChain (k : Key) : List (Entry V) → List (Entry V) × List V
  | [] => ([], [])
  | e :: rest =>
    if keyIs k e then (rest, [e.value])
    else
      match rest with
      | [] => ([e], [])
      | e2 :: rest2 =>
        if keyIs k e2 then (rest2, [e2.value])
        else
          let r := removeChain k (e2 :: rest2)
          (e :: r.1, r.2)

/-- `cmap_remove` (`src/hashmap.c` lines 260-288): when `findKey` finds
the key, rewrite the chain as `removeChain` describes (dropping the
predecessor entry as well whenever the match is not at the head of the
chain) and decrement the count by one; otherwise do nothing. -/
def cmap_remove (m : CMap V) (k : Key) : CMap V × List V :=
  let i := hash k m.numberOfBuckets
  let chain := getBucket m i
  if containsKey k chain then
    let r := removeChain k chain
    ({ m with
        buckets := m.buckets.set i r.1
        numberOfElements := m.numberOfElements - 1 }, r.2)
  else (m, [])

/-- The bucket scan shared by `cmap_first` and `cmap_next`: the key of the
head entry of the first non-empty bucket of the given bucket-array
suffix. -/
def firstKeyIn : List (List (Entry V)) → Option Key
  | [] => none
  | [] :: rest => firstKeyIn rest
  | (e :: _) :: _ => some e.key

/-- `cmap_first` (`src/hashmap.c` lines 290-297): scan the buckets in
index order for the first entry. -/
def cmap_first (m : CMap V) : Option Key := firstKeyIn m.buckets

/-- The in-chain step of `cmap_next`: locate the entry whose key is the
iteration token and return the key of its chain successor, if any. -/
def chainNext (k : Key) : List (Entry V) → Option Key
  | [] => none
  | e :: rest => if keyIs k e then rest.head?.map Entry.key else chainNext k rest

/-- `cmap_next` (`src/hashmap.c` lines 299-316): follow the token entry's
chain link if there is a successor; otherwise re-derive the token's bucket
from its hash and scan the following buckets, returning NULL from the last
bucket. -/
def cmap_next (m : CMap V) (prevkey : Key) : Option Key :=
  let i := hash prevkey m.numberOfBuckets
  match chainNext prevkey (getBucket m i) with
  | some k => some k
  | none =>
    if m.numberOfBuckets ≤ i + 1 then none
    else firstKeyIn (m.buckets.drop (i + 1))

/-- `cmap_dispose` (`src/hashmap.c` lines 110-135): collect every node by
walking the buckets in index order and each chain front to back, then
invoke cleanup on each collected value once. Returns the cleanup
invocation list. -/
def cmap_dispose (m : CMap V) : List V := (allEntries m).map Entry.value

/-- A mutating operation of the map API. -/
inductive Op (V : Type) where
  | put (k : Key) (v : V)
  | remove (k : Key)
  deriving DecidableEq, Repr

/-- Apply one operation (discarding the cleanup list). -/
def applyOp (m : CMap V) : Op V → CMap V
  | .put k v => (cmap_put m k v).1
  | .remove k => (cmap_remove m k).1

/-- Apply a sequence of operations in order. -/
def applyOps (m : CMap V) (ops : List (Op V)) : CMap V := ops.foldl applyOp m

/-- Whether an operation mutates the binding of key `k`. -/
def affects (k : Key) : Op V → Prop
  | .put k2 _ => k2 = k
  | .remove k2 => k2 = k

instance (k : Key) (op : Op V) : Decidable (affects k op) := by
  cases op <;> simp only [affects] <;> infer_instance

/-- One insertion step of a bulk build: `cmap_put` the pair and append its
cleanup invocations to the log. -/
def buildStep (s : CMap V × List V) (p : Key × V) : CMap V × List V :=
  let r := cmap_put s.1 p.1 p.2
  (r.1, s.2 ++ r.2)

/-- Insert a list of key/value pairs into a fresh map, collecting all
cleanup invocations made along the way. -/
def buildMap (V : Type) (hint : Nat) (pairs : List (Key × V)) : CMap V × List V :=
  pairs.foldl buildStep (cmap_create V hint, [])

/-- The keys produced by starting a traversal at `start` and repeatedly
calling `cmap_next`, with fuel bounding the number of steps. -/
def walk (m : CMap V) : Nat → Option Key → List Key
  | _, none => []
  | 0, some _ => []
  | fuel + 1, some k => k :: walk m fuel (cmap_next m k)

/-- A small concrete map used as a test vector: one bucket holding the
chain with key [1] mapping to 10 followed by key [2] mapping to 20. -/
def exMap1 : CMap Nat := ⟨1, 2, [[⟨[1], 10⟩, ⟨[2], 20⟩]]⟩

/-- A two-bucket test vector: key [2] in bucket 0, key [1] in bucket 1
(these are their hash buckets for 2 buckets). -/
def exMap2 : CMap Nat := ⟨2, 2, [[⟨[2], 20⟩], [⟨[1], 10⟩]]⟩

/-- The structural invariant of a CMap: the bucket array has
`numberOfBuckets` (a positive number of) buckets, `numberOfElements`
counts the reachable entries, every entry sits in the bucket its key
hashes to, and keys are unique across the whole map. -/
def WF (m : CMap V) : Prop :=
  m.buckets.length = m.numberOfBuckets ∧
  0 < m.numberOfBuckets ∧
  m.numberOfElements = (allEntries m).length ∧
  (∀ i < m.buckets.length, ∀ e ∈ getBucket m i, hash e.key m.numberOfBuckets = i) ∧
  (allKeys m).Nodup

instance (m : CMap V) : Decidable (WF m) := by
  unfold WF getBucket
  infer_instance

/-! ### Generic list helpers -/

theorem getD_set_self {α : Type _} (l : List α) (i : Nat) (a d : α) (h : i < l.length) :
    (l.set i a).getD i d = a := by
  rw [List.getD_eq_getElem _ _ (by simpa using h)]
  simp

theorem getD_set_ne {α : Type _} (l : List α) {i j : Nat} (a d : α) (h : i ≠ j) :
    (l.set i a).getD j d = l.getD j d := by
  by_cases hj : j < l.length
  · rw [List.getD_eq_getElem _ _ (by simpa using hj), List.getD_eq_getElem _ _ hj,
      List.getElem_set_ne h]
  · rw [List.getD_eq_default _ _ (by simpa using Nat.le_of_not_lt hj),
      List.getD_eq_default _ _ (Nat.le_of_not_lt hj)]

theorem getD_drop {α : Type _} (l : List α) (a b : Nat) (d : α) :
    (l.drop a).getD b d = l.getD (a + b) d := by
  induction a generalizing l with
  | zero => simp
  | succ a ih =>
    cases l with
    | nil => simp
    | cons x t =>
      have : a + 1 + b = (a + b) + 1 := by omega
      simp [this, ih t]

theorem flatten_decomp {α : Type _} (l : List (List α)) (i : Nat) (h : i < l.length) :
    l.flatten = (l.take i).flatten ++ l.getD i [] ++ ((l.drop (i + 1)).flatten) := by
  conv_lhs => rw [← List.take_append_drop i l]
  rw [List.flatten_append, List.drop_eq_getElem_cons h, List.flatten_cons,
    List.getD_eq_getElem _ _ h, List.append_assoc]

theorem flatten_set {α : Type _} (l : List (List α)) (i : Nat) (c : List α) (h : i < l.length) :
    (l.set i c).flatten = (l.take i).flatten ++ c ++ ((l.drop (i + 1)).flatten) := by
  rw [List.set_eq_take_append_cons_drop, if_pos h, List.flatten_append, List.flatten_cons,
    List.append_assoc]

theorem find?_eq_head?_filter {α : Type _} (p : α → Bool) (l : List α) :
    l.find? p = (l.filter p).head? := by
  induction l with
  | nil => rfl
  | cons a t ih =>
    by_cases h : p a
    · rw [List.find?_cons_of_pos _ h, List.filter_cons_of_pos h]
      rfl
    · rw [List.find?_cons_of_neg _ h, List.filter_cons_of_neg h]
      exact ih

/-! ### Chain-level lemmas -/

theorem keyIs_iff {k : Key} {e : Entry V} : keyIs k e = true ↔ e.key = k := by
  simp [keyIs]

theorem containsKey_iff {k : Key} {c : List (Entry V)} :
    containsKey k c = true ↔ ∃ e ∈ c, e.key = k := by
  simp [containsKey, List.any_eq_true, keyIs]

theorem containsKey_eq_false_iff {k : Key} {c : List (Entry V)} :
    containsKey k c = false ↔ ∀ e ∈ c, e.key ≠ k := by
  simp [containsKey, List.any_eq_false, keyIs]

theorem containsKey_eq_isSome_find? (k : Key) (c : List (Entry V)) :
    containsKey k c = (c.find? (keyIs k)).isSome := by
  induction c with
  | nil => rfl
  | cons e t ih =>
    by_cases h : keyIs k e
    · simp [containsKey, h, List.find?_cons]
    · simp only [containsKey, List.any_cons, h, Bool.false_or, List.find?_cons]
      simpa [containsKey] using ih

theorem putChain_cons_pos {k : Key} {v : V} {e : Entry V} {t : List (Entry V)}
    (h : keyIs k e = true) :
    putChain k v (e :: t) = ({ e with value := v } :: t, [e.value]) := by
  simp [putChain, h]

theorem putChain_cons_neg {k : Key} {v : V} {e : Entry V} {t : List (Entry V)}
    (h : ¬ keyIs k e = true) :
    putChain k v (e :: t) = (e :: (putChain k v t).1, (putChain k v t).2) := by
  simp [putChain, h]

theorem removeChain_cons_pos {k : Key} {e : Entry V} {t : List (Entry V)}
    (h : keyIs k e = true) :
    removeChain k (e :: t) = (t, [e.value]) := by
  cases t with
  | nil => simp [removeChain, h]
  | cons e2 t2 => simp [removeChain, h]

theorem removeChain_cons_neg_nil {k : Key} {e : Entry V}
    (h : ¬ keyIs k e = true) :
    removeChain k [e] = ([e], []) := by
  simp [removeChain, h]

theorem removeChain_cons_neg_pos {k : Key} {e e2 : Entry V} {t : List (Entry V)}
    (h : ¬ keyIs k e = true) (h2 : keyIs k e2 = true) :
    removeChain k (e :: e2 :: t) = (t, [e2.value]) := by
  simp [removeChain, h, h2]

theorem removeChain_cons_neg_neg {k : Key} {e e2 : Entry V} {t : List (Entry V)}
    (h : ¬ keyIs k e = true) (h2 : ¬ keyIs k e2 = true) :
    removeChain k (e :: e2 :: t)
      = (e :: (removeChain k (e2 :: t)).1, (removeChain k (e2 :: t)).2) := by
  simp [removeChain, h, h2]

theorem putChain_of_not_found {k : Key} {v : V} {c : List (Entry V)}
    (h : ∀ e ∈ c, e.key ≠ k) : putChain k v c = (c ++ [⟨k, v⟩], []) := by
  induction c with
  | nil => rfl
  | cons e t ih =>
    have hk : ¬ keyIs k e = true := by simp [keyIs, h e (by simp)]
    rw [putChain_cons_neg hk, ih (fun e2 he2 => h e2 (by simp [he2]))]
    rfl

theorem find?_putChain_self (k : Key) (v : V) (c : List (Entry V)) :
    (putChain k v c).1.find? (keyIs k) = some ⟨k, v⟩ := by
  induction c with
  | nil => simp [putChain, List.find?_cons, keyIs]
  | cons e t ih =>
    by_cases h : keyIs k e
    · have hek : e.key = k := keyIs_iff.mp h
      rw [putChain_cons_pos h]
      rw [List.find?_cons_of_pos _ (by simp [keyIs, hek])]
      simp [hek]
    · rw [putChain_cons_neg h, List.find?_cons_of_neg _ h]
      exact ih

theorem find?_putChain_other {k k2 : Key} (hne : k2 ≠ k) (v : V) (c : List (Entry V)) :
    (putChain k v c).1.find? (keyIs k2) = c.find? (keyIs k2) := by
  induction c with
  | nil =>
    rw [show (putChain k v ([] : List (Entry V))).1 = [⟨k, v⟩] from rfl,
      List.find?_cons_of_neg _ (by
        simp only [keyIs, decide_eq_true_eq]
        exact fun hh => hne hh.symm)]
  | cons e t ih =>
    by_cases h : keyIs k e
    · have hek : e.key = k := keyIs_iff.mp h
      have hne2 : ¬ keyIs k2 ({ e with value := v } : Entry V) = true := by
        simp only [keyIs, decide_eq_true_eq]
        intro hh
        exact hne (hh.symm.trans hek)
      have hne3 : ¬ keyIs k2 e = true := by
        simp only [keyIs, decide_eq_true_eq]
        intro hh
        exact hne (hh.symm.trans hek)
      rw [putChain_cons_pos h, List.find?_cons_of_neg _ hne2, List.find?_cons_of_neg _ hne3]
    · rw [putChain_cons_neg h]
      by_cases h2 : keyIs k2 e
      · rw [List.find?_cons_of_pos _ h2, List.find?_cons_of_pos _ h2]
      · rw [List.find?_cons_of_neg _ h2, List.find?_cons_of_neg _ h2]
        exact ih

theorem putChain_fst_map_key_found {k : Key} {v : V} {c : List (Entry V)}
    (h : containsKey k c = true) :
    (putChain k v c).1.map Entry.key = c.map Entry.key := by
  induction c with
  | nil => cases h
  | cons e t ih =>
    by_cases hk : keyIs k e
    · rw [putChain_cons_pos hk]
      simp
    · have ht : containsKey k t = true := by
        simpa [containsKey, List.any_cons, hk] using h
      rw [putChain_cons_neg hk]
      simp [ih ht]

theorem putChain_fst_map_key_not_found {k : Key} {v : V} {c : List (Entry V)}
    (h : containsKey k c = false) :
    (putChain k v c).1.map Entry.key = c.map Entry.key ++ [k] := by
  rw [putChain_of_not_found (containsKey_eq_false_iff.mp h)]
  simp

theorem putChain_snd_not_found {k : Key} {v : V} {c : List (Entry V)}
    (h : containsKey k c = false) : (putChain k v c).2 = [] := by
  rw [putChain_of_not_found (containsKey_eq_false_iff.mp h)]

theorem putChain_snd_found {k : Key} {v : V} {c : List (Entry V)} {e : Entry V}
    (h : c.find? (keyIs k) = some e) : (putChain k v c).2 = [e.value] := by
  induction c with
  | nil => cases h
  | cons e2 t ih =>
    by_cases hk : keyIs k e2
    · have he : e2 = e := by
        rw [List.find?_cons_of_pos _ hk] at h
        simpa using h
      cases he
      rw [putChain_cons_pos hk]
    · have ht : t.find? (keyIs k) = some e := by
        rwa [List.find?_cons_of_neg _ hk] at h
      rw [putChain_cons_neg hk]
      exact ih ht

theorem mem_putChain_key {k : Key} {v : V} {c : List (Entry V)} {e2 : Entry V}
    (h : e2 ∈ (putChain k v c).1) : e2.key = k ∨ e2.key ∈ c.map Entry.key := by
  induction c with
  | nil =>
    have he : e2 = ⟨k, v⟩ := by simpa [putChain] using h
    left
    rw [he]
  | cons e t ih =>
    by_cases hk : keyIs k e
    · rw [putChain_cons_pos hk] at h
      rcases List.mem_cons.mp h with h1 | h1
      · right
        rw [h1]
        simp
      · right
        simp only [List.map_cons, List.mem_cons]
        exact Or.inr (List.mem_map_of_mem Entry.key h1)
    · rw [putChain_cons_neg hk] at h
      rcases List.mem_cons.mp h with h1 | h1
      · right
        rw [h1]
        simp
      · rcases ih h1 with h2 | h2
        · exact Or.inl h2
        · right
          simp only [List.map_cons, List.mem_cons]
          exact Or.inr h2

theorem removeChain_of_not_found {k : Key} {c : List (Entry V)}
    (h : ∀ e ∈ c, e.key ≠ k) : removeChain k c = (c, []) := by
  induction c with
  | nil => rfl
  | cons e rest ih =>
    have hk : ¬ keyIs k e = true := by simp [keyIs, h e (by simp)]
    cases rest with
    | nil => exact removeChain_cons_neg_nil hk
    | cons e2 rest2 =>
      have hk2 : ¬ keyIs k e2 = true := by simp [keyIs, h e2 (by simp)]
      have ht := ih (fun e3 he3 => h e3 (by simp [he3]))
      rw [removeChain_cons_neg_neg hk hk2, ht]

theorem removeChain_snd_found {k : Key} {c : List (Entry V)} {e : Entry V}
    (h : c.find? (keyIs k) = some e) : (removeChain k c).2 = [e.value] := by
  induction c with
  | nil => cases h
  | cons e1 rest ih =>
    by_cases hk : keyIs k e1
    · have he : e1 = e := by
        rw [List.find?_cons_of_pos _ hk] at h
        simpa using h
      cases he
      rw [removeChain_cons_pos hk]
    · have ht : rest.find? (keyIs k) = some e := by
        rwa [List.find?_cons_of_neg _ hk] at h
      cases rest with
      | nil => cases ht
      | cons e2 rest2 =>
        by_cases hk2 : keyIs k e2
        · have he : e2 = e := by
            rw [List.find?_cons_of_pos _ hk2] at ht
            simpa using ht
          cases he
          rw [removeChain_cons_neg_pos hk hk2]
        · rw [removeChain_cons_neg_neg hk hk2]
          exact ih ht

theorem find?_removeChain_self {k : Key} {c : List (Entry V)}
    (hnd : (c.map Entry.key).Nodup) : (removeChain k c).1.find? (keyIs k) = none := by
  induction c with
  | nil => rfl
  | cons e rest ih =>
    have hnd2 : (∀ x ∈ rest, ¬ x.key = e.key) ∧ (rest.map Entry.key).Nodup := by
      simpa using hnd
    by_cases hk : keyIs k e
    · have hek : e.key = k := keyIs_iff.mp hk
      rw [removeChain_cons_pos hk, List.find?_eq_none]
      intro e2 he2 hke2
      exact hnd2.1 e2 he2 (by rw [keyIs_iff.mp hke2, hek])
    · cases rest with
      | nil =>
        rw [removeChain_cons_neg_nil hk, List.find?_cons_of_neg _ hk]
        rfl
      | cons e2 rest2 =>
        by_cases hk2 : keyIs k e2
        · have hek2 : e2.key = k := keyIs_iff.mp hk2
          have hnd3 : (∀ x ∈ rest2, ¬ x.key = e2.key) ∧ (rest2.map Entry.key).Nodup := by
            simpa using hnd2.2
          rw [removeChain_cons_neg_pos hk hk2, List.find?_eq_none]
          intro e3 he3 hke3
          exact hnd3.1 e3 he3 (by rw [keyIs_iff.mp hke3, hek2])
        · rw [removeChain_cons_neg_neg hk hk2, List.find?_cons_of_neg _ hk]
          exact ih hnd2.2

theorem removeChain_fst_sublist (k : Key) (c : List (Entry V)) :
    (removeChain k c).1.Sublist c := by
  induction c with
  | nil => simp [removeChain]
  | cons e rest ih =>
    by_cases hk : keyIs k e
    · rw [removeChain_cons_pos hk]
      exact List.sublist_cons_self e rest
    · cases rest with
      | nil =>
        rw [removeChain_cons_neg_nil hk]
      | cons e2 rest2 =>
        by_cases hk2 : keyIs k e2
        · rw [removeChain_cons_neg_pos hk hk2]
          exact (List.sublist_cons_self e2 rest2).trans (List.sublist_cons_self e _)
        · rw [removeChain_cons_neg_neg hk hk2]
          exact List.Sublist.cons₂ e ih

theorem placeNode_of_not_found {e : Entry V} {c : List (Entry V)}
    (h : ∀ e2 ∈ c, e2.key ≠ e.key) : placeNode e c = c ++ [e] := by
  induction c with
  | nil => rfl
  | cons e2 t ih =>
    have hk : ¬ keyIs e.key e2 = true := by simp [keyIs, h e2 (by simp)]
    simp only [placeNode, hk, if_false]
    rw [ih (fun e3 he3 => h e3 (by simp [he3]))]
    rfl

theorem chainNext_eq {e : Entry V} {pre s : List (Entry V)}
    (h : ∀ e2 ∈ pre, e2.key ≠ e.key) :
    chainNext e.key (pre ++ e :: s) = s.head?.map Entry.key := by
  induction pre with
  | nil => simp [chainNext, keyIs]
  | cons e2 t ih =>
    have hk : ¬ keyIs e.key e2 = true := by simp [keyIs, h e2 (by simp)]
    simp only [List.cons_append, chainNext, hk, if_false]
    exact ih (fun e3 he3 => h e3 (by simp [he3]))

/-! ### Map-level basics -/

theorem flatten_replicate_nil {α : Type _} (n : Nat) :
    (List.replicate n ([] : List α)).flatten = [] := by
  induction n with
  | zero => rfl
  | succ n ih => simp [List.replicate_succ, ih]

theorem getD_replicate_nil {α : Type _} (n i : Nat) :
    (List.replicate n ([] : List α)).getD i [] = [] := by
  by_cases h : i < n
  · rw [List.getD_eq_getElem _ _ (by simpa using h)]
    simp
  · rw [List.getD_eq_default _ _ (by simpa using Nat.le_of_not_lt h)]

theorem WF_create (V : Type) (hint : Nat) : WF (cmap_create V hint) := by
  refine ⟨by simp [cmap_create], ?_, ?_, ?_, ?_⟩
  · by_cases h : hint = 0
    · simp [cmap_create, h]
    · simp [cmap_create, h]
      omega
  · simp [cmap_create, allEntries, flatten_replicate_nil]
  · intro i hi e he
    simp [cmap_create, getBucket, getD_replicate_nil] at he
  · simp [allKeys, allEntries, cmap_create, flatten_replicate_nil]

theorem hash_lt (s : Key) {n : Nat} (h : 0 < n) : hash s n < n := Nat.mod_lt _ h

theorem mem_bucket_of_mem {m : CMap V} (hWF : WF m) {e : Entry V}
    (he : e ∈ allEntries m) :
    e ∈ getBucket m (hash e.key m.numberOfBuckets) ∧
      hash e.key m.numberOfBuckets < m.buckets.length := by
  obtain ⟨hlen, hpos, hcount, hplaced, hnodup⟩ := hWF
  rcases List.mem_flatten.mp he with ⟨b, hb, heb⟩
  rcases List.mem_iff_getElem.mp hb with ⟨i, hi, rfl⟩
  have hgb : getBucket m i = m.buckets[i] := List.getD_eq_getElem _ _ hi
  have hhash : hash e.key m.numberOfBuckets = i :=
    hplaced i hi e (by rw [hgb]; exact heb)
  constructor
  · rw [hhash, hgb]
    exact heb
  · rw [hhash]
    exact hi

theorem get_eq_global {m : CMap V} (hWF : WF m) (k : Key) :
    cmap_get m k = ((allEntries m).find? (keyIs k)).map Entry.value := by
  obtain ⟨hlen, hpos, hcount, hplaced, hnodup⟩ := hWF
  have hilt : hash k m.numberOfBuckets < m.buckets.length := by
    rw [hlen]
    exact hash_lt k hpos
  have hdec := flatten_decomp m.buckets (hash k m.numberOfBuckets) hilt
  have hA : (m.buckets.take (hash k m.numberOfBuckets)).flatten.find? (keyIs k) = none := by
    rw [List.find?_eq_none]
    intro e hein hke
    rcases List.mem_flatten.mp hein with ⟨b, hb, heb⟩
    rcases List.mem_iff_getElem.mp hb with ⟨j, hj, hjb⟩
    have hj2 : j < hash k m.numberOfBuckets := by
      have := hj
      simp only [List.length_take] at this
      omega
    have hjlen : j < m.buckets.length := by omega
    have hbj : b = m.buckets[j] := by
      rw [← hjb, List.getElem_take]
    have hhash : hash e.key m.numberOfBuckets = j :=
      hplaced j hjlen e (by
        unfold getBucket
        rw [List.getD_eq_getElem _ _ hjlen, ← hbj]
        exact heb)
    rw [keyIs_iff.mp hke] at hhash
    omega
  have hB : ((m.buckets.drop (hash k m.numberOfBuckets + 1)).flatten.find? (keyIs k)) = none := by
    rw [List.find?_eq_none]
    intro e hein hke
    rcases List.mem_flatten.mp hein with ⟨b, hb, heb⟩
    rcases List.mem_iff_getElem.mp hb with ⟨j, hj, hjb⟩
    have hjlen : hash k m.numberOfBuckets + 1 + j < m.buckets.length := by
      have := hj
      simp only [List.length_drop] at this
      omega
    have hbj : b = m.buckets[hash k m.numberOfBuckets + 1 + j] := by
      rw [← hjb, List.getElem_drop]
    have hhash : hash e.key m.numberOfBuckets = hash k m.numberOfBuckets + 1 + j :=
      hplaced _ hjlen e (by
        unfold getBucket
        rw [List.getD_eq_getElem _ _ hjlen, ← hbj]
        exact heb)
    rw [keyIs_iff.mp hke] at hhash
    omega
  show ((getBucket m (hash k m.numberOfBuckets)).find? (keyIs k)).map Entry.value = _
  rw [show allEntries m = _ from hdec, List.find?_append, List.find?_append, hA, hB,
    Option.none_or, Option.or_none]
  rfl

theorem get_eq_none_iff {m : CMap V} (hWF : WF m) (k : Key) :
    cmap_get m k = none ↔ k ∉ allKeys m := by
  rw [get_eq_global hWF k]
  simp only [Option.map_eq_none', List.find?_eq_none, allKeys, List.mem_map]
  constructor
  · rintro h ⟨e, he, rfl⟩
    exact h e he (by simp [keyIs])
  · intro h e he hke
    exact h ⟨e, he, keyIs_iff.mp hke⟩

theorem find?_perm_of_nodup {l l2 : List (Entry V)} (hp : l.Perm l2)
    (hnd : (l.map Entry.key).Nodup) (k : Key) :
    l.find? (keyIs k) = l2.find? (keyIs k) := by
  rw [find?_eq_head?_filter, find?_eq_head?_filter]
  have hpf : (l.filter (keyIs k)).Perm (l2.filter (keyIs k)) := hp.filter _
  have hsub : (l.filter (keyIs k)).Sublist l := List.filter_sublist _
  have hndf : ((l.filter (keyIs k)).map Entry.key).Nodup := (hsub.map _).nodup hnd
  have hall : ∀ e ∈ l.filter (keyIs k), e.key = k :=
    fun e he => keyIs_iff.mp (List.of_mem_filter he)
  cases hfl : l.filter (keyIs k) with
  | nil =>
    rw [hfl] at hpf
    rw [List.Perm.eq_nil hpf.symm]
  | cons a t =>
    cases t with
    | nil =>
      rw [hfl] at hpf
      rw [List.perm_singleton.mp hpf.symm]
    | cons b t2 =>
      exfalso
      rw [hfl] at hndf hall
      have hab : a.key = k := hall a (by simp)
      have hbb : b.key = k := hall b (by simp)
      have hndf2 : (¬ a.key = b.key ∧ ∀ x ∈ t2, ¬ x.key = a.key) ∧
          (∀ x ∈ t2, ¬ x.key = b.key) ∧ (t2.map Entry.key).Nodup := by
        simpa using hndf
      exact hndf2.1.1 (by rw [hab, hbb])

theorem firstKeyIn_eq_head? (bs : List (List (Entry V))) :
    firstKeyIn bs = (bs.flatten.map Entry.key).head? := by
  induction bs with
  | nil => rfl
  | cons b rest ih =>
    cases b with
    | nil => simpa [firstKeyIn] using ih
    | cons e t => simp [firstKeyIn]

theorem firstKeyIn_some {bs : List (List (Entry V))} {k : Key}
    (h : firstKeyIn bs = some k) :
    ∃ j e s, j < bs.length ∧ bs.getD j [] = e :: s ∧ e.key = k ∧
      bs.flatten = (e :: s) ++ ((bs.drop (j + 1)).flatten) := by
  induction bs with
  | nil => cases h
  | cons b rest ih =>
    cases b with
    | nil =>
      obtain ⟨j, e, s, hj, hb, hk, hfl⟩ := ih (by simpa [firstKeyIn] using h)
      refine ⟨j + 1, e, s, by simpa using hj, by simpa using hb, hk, ?_⟩
      simpa using hfl
    | cons e t =>
      have hk : e.key = k := by simpa [firstKeyIn] using h
      exact ⟨0, e, t, by simp, by simp, hk, by simp⟩

/-! ### Rehash -/

theorem foldl_rehashInsert_numberOfBuckets (ents : List (Entry V)) (s : CMap V) :
    (ents.foldl rehashInsert s).numberOfBuckets = s.numberOfBuckets := by
  induction ents generalizing s with
  | nil => rfl
  | cons e t ih => exact ih (rehashInsert s e)

theorem foldl_rehashInsert_numberOfElements (ents : List (Entry V)) (s : CMap V) :
    (ents.foldl rehashInsert s).numberOfElements = s.numberOfElements := by
  induction ents generalizing s with
  | nil => rfl
  | cons e t ih => exact ih (rehashInsert s e)

theorem checkForRehash_numberOfBuckets (m : CMap V) :
    (checkForRehash m).numberOfBuckets =
      if 3 * m.numberOfBuckets < 2 * m.numberOfElements then m.numberOfBuckets * 3 + 1
      else m.numberOfBuckets := by
  unfold checkForRehash
  split
  · rw [foldl_rehashInsert_numberOfBuckets]
  · rfl

theorem checkForRehash_numberOfElements (m : CMap V) :
    (checkForRehash m).numberOfElements = m.numberOfElements := by
  unfold checkForRehash
  split
  · rw [foldl_rehashInsert_numberOfElements]
  · rfl

theorem rehashInsert_spec {s : CMap V} {e : Entry V}
    (hlen : s.buckets.length = s.numberOfBuckets)
    (hpos : 0 < s.numberOfBuckets)
    (hplaced : ∀ i < s.buckets.length, ∀ e2 ∈ getBucket s i, hash e2.key s.numberOfBuckets = i)
    (hfresh : e.key ∉ (allEntries s).map Entry.key) :
    (rehashInsert s e).numberOfBuckets = s.numberOfBuckets ∧
    (rehashInsert s e).numberOfElements = s.numberOfElements ∧
    (rehashInsert s e).buckets.length = s.buckets.length ∧
    (∀ i < (rehashInsert s e).buckets.length,
        ∀ e2 ∈ getBucket (rehashInsert s e) i, hash e2.key s.numberOfBuckets = i) ∧
    (allEntries (rehashInsert s e)).Perm (e :: allEntries s) := by
  have hilt : hash e.key s.numberOfBuckets < s.buckets.length := by
    rw [hlen]
    exact hash_lt _ hpos
  have hbfresh : ∀ e2 ∈ getBucket s (hash e.key s.numberOfBuckets), e2.key ≠ e.key := by
    intro e2 he2 hkeq
    apply hfresh
    have hmem : e2 ∈ allEntries s := by
      apply List.mem_flatten.mpr
      refine ⟨getBucket s (hash e.key s.numberOfBuckets), ?_, he2⟩
      unfold getBucket
      rw [List.getD_eq_getElem _ _ hilt]
      exact List.getElem_mem hilt
    rw [← hkeq]
    exact List.mem_map_of_mem Entry.key hmem
  have hplace : placeNode e (getBucket s (hash e.key s.numberOfBuckets))
      = getBucket s (hash e.key s.numberOfBuckets) ++ [e] := placeNode_of_not_found hbfresh
  have hbuck : (rehashInsert s e).buckets
      = s.buckets.set (hash e.key s.numberOfBuckets)
          (getBucket s (hash e.key s.numberOfBuckets) ++ [e]) := by
    rw [← hplace]
    rfl
  refine ⟨rfl, rfl, by rw [hbuck]; simp, ?_, ?_⟩
  · intro j hj e2 he2
    have hjlen : j < s.buckets.length := by
      rw [hbuck] at hj
      simpa using hj
    by_cases hji : hash e.key s.numberOfBuckets = j
    · subst hji
      have hb : getBucket (rehashInsert s e) (hash e.key s.numberOfBuckets)
          = getBucket s (hash e.key s.numberOfBuckets) ++ [e] := by
        unfold getBucket
        rw [hbuck]
        exact getD_set_self _ _ _ _ hilt
      rw [hb] at he2
      rcases List.mem_append.mp he2 with h1 | h1
      · exact hplaced _ hilt e2 h1
      · have he2e : e2 = e := by simpa using h1
        rw [he2e]
    · have hb : getBucket (rehashInsert s e) j = getBucket s j := by
        unfold getBucket
        rw [hbuck]
        exact getD_set_ne _ _ _ hji
      rw [hb] at he2
      exact hplaced j hjlen e2 he2
  · have hdec := flatten_decomp s.buckets (hash e.key s.numberOfBuckets) hilt
    have hset := flatten_set s.buckets (hash e.key s.numberOfBuckets)
      (getBucket s (hash e.key s.numberOfBuckets) ++ [e]) hilt
    have h1 : allEntries (rehashInsert s e)
        = ((s.buckets.take (hash e.key s.numberOfBuckets)).flatten
            ++ s.buckets.getD (hash e.key s.numberOfBuckets) [])
          ++ e :: (s.buckets.drop (hash e.key s.numberOfBuckets + 1)).flatten := by
      show (rehashInsert s e).buckets.flatten = _
      rw [hbuck, hset]
      simp [getBucket, List.append_assoc]
    have h2 : allEntries s
        = ((s.buckets.take (hash e.key s.numberOfBuckets)).flatten
            ++ s.buckets.getD (hash e.key s.numberOfBuckets) [])
          ++ (s.buckets.drop (hash e.key s.numberOfBuckets + 1)).flatten := by
      show s.buckets.flatten = _
      rw [hdec]
    rw [h1, h2]
    exact List.perm_middle

theorem rehash_fold_spec (ents : List (Entry V)) :
    ∀ (s : CMap V),
    s.buckets.length = s.numberOfBuckets →
    0 < s.numberOfBuckets →
    (∀ i < s.buckets.length, ∀ e ∈ getBucket s i, hash e.key s.numberOfBuckets = i) →
    ((allEntries s).map Entry.key).Nodup →
    (ents.map Entry.key).Nodup →
    (∀ e ∈ ents, e.key ∉ (allEntries s).map Entry.key) →
    (ents.foldl rehashInsert s).buckets.length = (ents.foldl rehashInsert s).numberOfBuckets ∧
    (∀ i < (ents.foldl rehashInsert s).buckets.length,
        ∀ e ∈ getBucket (ents.foldl rehashInsert s) i,
          hash e.key (ents.foldl rehashInsert s).numberOfBuckets = i) ∧
    (allEntries (ents.foldl rehashInsert s)).Perm (allEntries s ++ ents) := by
  induction ents with
  | nil =>
    intro s hlen hpos hplaced hndS hndE hdisj
    exact ⟨hlen, hplaced, by simp⟩
  | cons e t ih =>
    intro s hlen hpos hplaced hndS hndE hdisj
    obtain ⟨hb1, he1, hl1, hp1, hperm1⟩ := rehashInsert_spec hlen hpos hplaced (hdisj e (by simp))
    have hkeynotin : e.key ∉ t.map Entry.key := (List.nodup_cons.mp (by simpa using hndE)).1
    have hndS1 : ((allEntries (rehashInsert s e)).map Entry.key).Nodup := by
      rw [List.Perm.nodup_iff (hperm1.map Entry.key)]
      simp only [List.map_cons]
      exact List.nodup_cons.mpr ⟨hdisj e (by simp), hndS⟩
    have hndE1 : (t.map Entry.key).Nodup := (List.nodup_cons.mp (by simpa using hndE)).2
    have hdisj1 : ∀ e2 ∈ t, e2.key ∉ (allEntries (rehashInsert s e)).map Entry.key := by
      intro e2 he2 hmem
      rw [(hperm1.map Entry.key).mem_iff] at hmem
      simp only [List.map_cons, List.mem_cons] at hmem
      rcases hmem with h1 | h1
      · exact hkeynotin (h1 ▸ List.mem_map_of_mem Entry.key he2)
      · exact hdisj e2 (by simp [he2]) h1
    have hlen1 : (rehashInsert s e).buckets.length = (rehashInsert s e).numberOfBuckets := by
      rw [hl1, hb1]
      exact hlen
    have hpos1 : 0 < (rehashInsert s e).numberOfBuckets := by
      rw [hb1]
      exact hpos
    have hp1b : ∀ i < (rehashInsert s e).buckets.length,
        ∀ e2 ∈ getBucket (rehashInsert s e) i,
          hash e2.key (rehashInsert s e).numberOfBuckets = i := by
      intro i hi e2 he2
      rw [hb1]
      exact hp1 i hi e2 he2
    obtain ⟨hg1, hg2, hg3⟩ := ih (rehashInsert s e) hlen1 hpos1 hp1b hndS1 hndE1 hdisj1
    refine ⟨by simpa using hg1, by simpa using hg2, ?_⟩
    have hfold : (e :: t).foldl rehashInsert s = t.foldl rehashInsert (rehashInsert s e) := rfl
    rw [hfold]
    refine hg3.trans ((hperm1.append_right t).trans ?_)
    have hassoc : (e :: allEntries s) ++ t = e :: (allEntries s ++ t) := by simp
    rw [hassoc]
    exact List.perm_middle.symm

theorem checkForRehash_spec {m : CMap V} (hWF : WF m) :
    WF (checkForRehash m) ∧ (allEntries (checkForRehash m)).Perm (allEntries m) := by
  obtain ⟨hlen, hpos, hcount, hplaced, hnodup⟩ := hWF
  by_cases hcond : 3 * m.numberOfBuckets < 2 * m.numberOfElements
  · have hform : checkForRehash m
        = (allEntries m).foldl rehashInsert
            { m with
              numberOfBuckets := m.numberOfBuckets * 3 + 1
              buckets := List.replicate (m.numberOfBuckets * 3 + 1) [] } := by
      simp [checkForRehash, hcond]
    have hclr : allEntries ({ m with
        numberOfBuckets := m.numberOfBuckets * 3 + 1
        buckets := List.replicate (m.numberOfBuckets * 3 + 1) [] } : CMap V) = [] := by
      simp [allEntries, flatten_replicate_nil]
    obtain ⟨hg1, hg2, hg3⟩ := rehash_fold_spec (allEntries m)
      { m with
        numberOfBuckets := m.numberOfBuckets * 3 + 1
        buckets := List.replicate (m.numberOfBuckets * 3 + 1) [] }
      (by simp)
      (by simp)
      (by
        intro i hi e he
        simp [getBucket, getD_replicate_nil] at he)
      (by rw [hclr]; simp)
      hnodup
      (by
        intro e he
        rw [hclr]
        simp)
    rw [hclr] at hg3
    simp only [List.nil_append] at hg3
    rw [hform]
    refine ⟨⟨hg1, ?_, ?_, hg2, ?_⟩, hg3⟩
    · rw [foldl_rehashInsert_numberOfBuckets]
      exact Nat.succ_pos _
    · rw [foldl_rehashInsert_numberOfElements]
      show m.numberOfElements = _
      rw [hg3.length_eq]
      exact hcount
    · show ((allEntries _).map Entry.key).Nodup
      rw [List.Perm.nodup_iff (hg3.map Entry.key)]
      exact hnodup
  · have hform : checkForRehash m = m := by
      simp [checkForRehash, hcond]
    rw [hform]
    exact ⟨⟨hlen, hpos, hcount, hplaced, hnodup⟩, List.Perm.refl _⟩

theorem get_checkForRehash {m : CMap V} (hWF : WF m) (k : Key) :
    cmap_get (checkForRehash m) k = cmap_get m k := by
  obtain ⟨hWF2, hperm⟩ := checkForRehash_spec hWF
  rw [get_eq_global hWF2 k, get_eq_global hWF k,
    find?_perm_of_nodup hperm hWF2.2.2.2.2 k]

/-! ### Remove -/

theorem allEntries_decomp {m : CMap V} {i : Nat} (h : i < m.buckets.length) :
    allEntries m
      = (m.buckets.take i).flatten ++ getBucket m i ++ (m.buckets.drop (i + 1)).flatten :=
  flatten_decomp m.buckets i h

theorem bucket_keys_nodup {m : CMap V} (hWF : WF m) {i : Nat} (h : i < m.buckets.length) :
    ((getBucket m i).map Entry.key).Nodup := by
  have hd := congrArg (List.map Entry.key) (allEntries_decomp h)
  simp only [List.map_append] at hd
  have hnd : (allKeys m).Nodup := hWF.2.2.2.2
  rw [show allKeys m = (allEntries m).map Entry.key from rfl, hd] at hnd
  exact ((List.nodup_append.mp ((List.nodup_append.mp
    (by rwa [List.append_assoc] at hnd)).2.1)).1)

theorem remove_absent {m : CMap V} {k : Key} (hget : cmap_get m k = none) :
    cmap_remove m k = (m, []) := by
  have hfind : (getBucket m (hash k m.numberOfBuckets)).find? (keyIs k) = none := by
    simpa [cmap_get, Option.map_eq_none'] using hget
  have hcont : containsKey k (getBucket m (hash k m.numberOfBuckets)) = false := by
    rw [containsKey_eq_isSome_find?, hfind]
    rfl
  simp [cmap_remove, hcont]

theorem remove_found_spec {m : CMap V} (hWF : WF m) {k : Key} {w : V}
    (hget : cmap_get m k = some w) :
    (cmap_remove m k).1.numberOfElements + 1 = m.numberOfElements ∧
    (cmap_remove m k).2 = [w] ∧
    cmap_get (cmap_remove m k).1 k = none := by
  obtain ⟨hlen, hpos, hcount, hplaced, hnodup⟩ := hWF
  have hilt : hash k m.numberOfBuckets < m.buckets.length := by
    rw [hlen]
    exact hash_lt k hpos
  obtain ⟨e, hfe, hev⟩ : ∃ e, (getBucket m (hash k m.numberOfBuckets)).find? (keyIs k) = some e
      ∧ e.value = w := by
    rcases Option.map_eq_some'.mp hget with ⟨e, h1, h2⟩
    exact ⟨e, h1, h2⟩
  have hcont : containsKey k (getBucket m (hash k m.numberOfBuckets)) = true := by
    rw [containsKey_eq_isSome_find?, hfe]
    rfl
  have hform : cmap_remove m k
      = ({ m with
            buckets := m.buckets.set (hash k m.numberOfBuckets)
              (removeChain k (getBucket m (hash k m.numberOfBuckets))).1
            numberOfElements := m.numberOfElements - 1 },
          (removeChain k (getBucket m (hash k m.numberOfBuckets))).2) := by
    simp [cmap_remove, hcont]
  have hbnodup : ((getBucket m (hash k m.numberOfBuckets)).map Entry.key).Nodup :=
    bucket_keys_nodup ⟨hlen, hpos, hcount, hplaced, hnodup⟩ hilt
  have hnob : (cmap_remove m k).1.numberOfBuckets = m.numberOfBuckets := by
    rw [hform]
  have hnoe : (cmap_remove m k).1.numberOfElements = m.numberOfElements - 1 := by
    rw [hform]
  have hb_self : getBucket (cmap_remove m k).1 (hash k m.numberOfBuckets)
      = (removeChain k (getBucket m (hash k m.numberOfBuckets))).1 := by
    rw [hform]
    exact getD_set_self _ _ _ _ hilt
  have hsnd : (cmap_remove m k).2 = (removeChain k (getBucket m (hash k m.numberOfBuckets))).2 := by
    rw [hform]
  have hmem : e ∈ allEntries m := by
    apply List.mem_flatten.mpr
    refine ⟨getBucket m (hash k m.numberOfBuckets), ?_, List.mem_of_find?_eq_some hfe⟩
    unfold getBucket
    rw [List.getD_eq_getElem _ _ hilt]
    exact List.getElem_mem hilt
  have hlenpos : 0 < (allEntries m).length := List.length_pos_of_mem hmem
  refine ⟨?_, ?_, ?_⟩
  · rw [hnoe]
    omega
  · rw [hsnd, removeChain_snd_found hfe, hev]
  · show ((getBucket (cmap_remove m k).1
        (hash k (cmap_remove m k).1.numberOfBuckets)).find? (keyIs k)).map Entry.value = none
    rw [hnob, hb_self, find?_removeChain_self hbnodup]
    rfl

theorem putRaw_common {m : CMap V} (hWF : WF m) (k : Key) (v : V) :
    (putRaw m k v).1.numberOfBuckets = m.numberOfBuckets ∧
    (putRaw m k v).1.buckets.length = m.buckets.length ∧
    getBucket (putRaw m k v).1 (hash k m.numberOfBuckets)
      = (putChain k v (getBucket m (hash k m.numberOfBuckets))).1 ∧
    (∀ j, hash k m.numberOfBuckets ≠ j → getBucket (putRaw m k v).1 j = getBucket m j) ∧
    allEntries (putRaw m k v).1
      = (m.buckets.take (hash k m.numberOfBuckets)).flatten
        ++ (putChain k v (getBucket m (hash k m.numberOfBuckets))).1
        ++ (m.buckets.drop (hash k m.numberOfBuckets + 1)).flatten := by
  have hilt : hash k m.numberOfBuckets < m.buckets.length := by
    rw [hWF.1]
    exact hash_lt k hWF.2.1
  refine ⟨rfl, by simp [putRaw], ?_, ?_, ?_⟩
  · exact getD_set_self _ _ _ _ hilt
  · intro j hj
    exact getD_set_ne _ _ _ hj
  · exact flatten_set m.buckets _ _ hilt

theorem get_putRaw_self {m : CMap V} (hWF : WF m) (k : Key) (v : V) :
    cmap_get (putRaw m k v).1 k = some v := by
  obtain ⟨hnob, hlen2, hb_self, hb_ne, hfl⟩ := putRaw_common hWF k v
  show ((getBucket (putRaw m k v).1
      (hash k (putRaw m k v).1.numberOfBuckets)).find? (keyIs k)).map Entry.value = some v
  rw [hnob, hb_self, find?_putChain_self]
  rfl

theorem get_putRaw_other {m : CMap V} (hWF : WF m) (k : Key) (v : V)
    {k2 : Key} (hk2 : k2 ≠ k) :
    cmap_get (putRaw m k v).1 k2 = cmap_get m k2 := by
  obtain ⟨hnob, hlen2, hb_self, hb_ne, hfl⟩ := putRaw_common hWF k v
  show ((getBucket (putRaw m k v).1
      (hash k2 (putRaw m k v).1.numberOfBuckets)).find? (keyIs k2)).map Entry.value
    = cmap_get m k2
  rw [hnob]
  by_cases hji : hash k m.numberOfBuckets = hash k2 m.numberOfBuckets
  · rw [← hji, hb_self, find?_putChain_other hk2, hji]
    rfl
  · rw [hb_ne _ hji]
    rfl

theorem putRaw_found_spec {m : CMap V} (hWF : WF m) {k : Key} {w : V} (v : V)
    (hget : cmap_get m k = some w) :
    WF (putRaw m k v).1 ∧
    allKeys (putRaw m k v).1 = allKeys m ∧
    (putRaw m k v).1.numberOfElements = m.numberOfElements ∧
    (putRaw m k v).2 = [w] := by
  obtain ⟨hnob, hlen2, hb_self, hb_ne, hfl⟩ := putRaw_common hWF k v
  obtain ⟨hlen, hpos, hcount, hplaced, hnodup⟩ := hWF
  have hilt : hash k m.numberOfBuckets < m.buckets.length := by
    rw [hlen]
    exact hash_lt k hpos
  obtain ⟨e, hfe, hev⟩ : ∃ e, (getBucket m (hash k m.numberOfBuckets)).find? (keyIs k) = some e
      ∧ e.value = w := by
    rcases Option.map_eq_some'.mp hget with ⟨e, h1, h2⟩
    exact ⟨e, h1, h2⟩
  have hcont : containsKey k (getBucket m (hash k m.numberOfBuckets)) = true := by
    rw [containsKey_eq_isSome_find?, hfe]
    rfl
  have hnoe : (putRaw m k v).1.numberOfElements = m.numberOfElements := by
    show (if containsKey k (getBucket m (hash k m.numberOfBuckets)) then m.numberOfElements
      else m.numberOfElements + 1) = m.numberOfElements
    rw [hcont]
    rfl
  have hflold := allEntries_decomp (m := m) hilt
  have hkeys : allKeys (putRaw m k v).1 = allKeys m := by
    show (allEntries (putRaw m k v).1).map Entry.key = (allEntries m).map Entry.key
    rw [hfl, hflold]
    simp only [List.map_append]
    rw [putChain_fst_map_key_found hcont]
  refine ⟨⟨?_, ?_, ?_, ?_, ?_⟩, hkeys, hnoe, ?_⟩
  · rw [hlen2, hnob]
    exact hlen
  · rw [hnob]
    exact hpos
  · rw [hnoe, hcount]
    have h1 : (allEntries (putRaw m k v).1).length = (allKeys (putRaw m k v).1).length := by
      show _ = ((allEntries _).map Entry.key).length
      rw [List.length_map]
    have h2 : (allEntries m).length = (allKeys m).length := by
      show _ = ((allEntries _).map Entry.key).length
      rw [List.length_map]
    rw [h2, ← hkeys, ← h1]
  · intro j hj e2 he2
    have hjlen : j < m.buckets.length := by rwa [hlen2] at hj
    rw [hnob]
    by_cases hji : hash k m.numberOfBuckets = j
    · subst hji
      rw [hb_self] at he2
      rcases mem_putChain_key he2 with h1 | h1
      · rw [h1]
      · rcases List.mem_map.mp h1 with ⟨e3, he3, hkey⟩
        rw [← hkey]
        exact hplaced _ hilt e3 he3
    · rw [hb_ne j hji] at he2
      exact hplaced j hjlen e2 he2
  · show (allKeys _).Nodup
    rw [hkeys]
    exact hnodup
  · show (putChain k v (getBucket m (hash k m.numberOfBuckets))).2 = [w]
    rw [putChain_snd_found hfe, hev]

theorem putRaw_not_found_spec {m : CMap V} (hWF : WF m) {k : Key} (v : V)
    (hget : cmap_get m k = none) :
    WF (putRaw m k v).1 ∧
    (allEntries (putRaw m k v).1).Perm (allEntries m ++ [⟨k, v⟩]) ∧
    (putRaw m k v).1.numberOfElements = m.numberOfElements + 1 ∧
    (putRaw m k v).2 = [] := by
  obtain ⟨hnob, hlen2, hb_self, hb_ne, hfl⟩ := putRaw_common hWF k v
  have hknotin : k ∉ allKeys m := (get_eq_none_iff hWF k).mp hget
  obtain ⟨hlen, hpos, hcount, hplaced, hnodup⟩ := hWF
  have hilt : hash k m.numberOfBuckets < m.buckets.length := by
    rw [hlen]
    exact hash_lt k hpos
  have hfind : (getBucket m (hash k m.numberOfBuckets)).find? (keyIs k) = none := by
    simpa [cmap_get, Option.map_eq_none'] using hget
  have hcont : containsKey k (getBucket m (hash k m.numberOfBuckets)) = false := by
    rw [containsKey_eq_isSome_find?, hfind]
    rfl
  have hchain : putChain k v (getBucket m (hash k m.numberOfBuckets))
      = (getBucket m (hash k m.numberOfBuckets) ++ [⟨k, v⟩], []) :=
    putChain_of_not_found (containsKey_eq_false_iff.mp hcont)
  have hnoe : (putRaw m k v).1.numberOfElements = m.numberOfElements + 1 := by
    show (if containsKey k (getBucket m (hash k m.numberOfBuckets)) then m.numberOfElements
      else m.numberOfElements + 1) = m.numberOfElements + 1
    rw [hcont]
    rfl
  have hflold := allEntries_decomp (m := m) hilt
  have hperm : (allEntries (putRaw m k v).1).Perm (allEntries m ++ [(⟨k, v⟩ : Entry V)]) := by
    rw [hfl, hchain]
    have h1 : (m.buckets.take (hash k m.numberOfBuckets)).flatten
          ++ (getBucket m (hash k m.numberOfBuckets) ++ [(⟨k, v⟩ : Entry V)])
          ++ (m.buckets.drop (hash k m.numberOfBuckets + 1)).flatten
        = ((m.buckets.take (hash k m.numberOfBuckets)).flatten
            ++ getBucket m (hash k m.numberOfBuckets))
          ++ (⟨k, v⟩ : Entry V) :: (m.buckets.drop (hash k m.numberOfBuckets + 1)).flatten := by
      simp [List.append_assoc]
    have h2 : allEntries m
        = ((m.buckets.take (hash k m.numberOfBuckets)).flatten
            ++ getBucket m (hash k m.numberOfBuckets))
          ++ (m.buckets.drop (hash k m.numberOfBuckets + 1)).flatten := by
      rw [hflold]
    rw [h1, h2]
    refine List.perm_middle.trans ?_
    exact (List.perm_append_singleton _ _).symm
  refine ⟨⟨?_, ?_, ?_, ?_, ?_⟩, hperm, hnoe, ?_⟩
  · rw [hlen2, hnob]
    exact hlen
  · rw [hnob]
    exact hpos
  · rw [hnoe, hcount, hperm.length_eq]
    simp
  · intro j hj e2 he2
    have hjlen : j < m.buckets.length := by rwa [hlen2] at hj
    rw [hnob]
    by_cases hji : hash k m.numberOfBuckets = j
    · subst hji
      rw [hb_self] at he2
      rcases mem_putChain_key he2 with h1 | h1
      · rw [h1]
      · rcases List.mem_map.mp h1 with ⟨e3, he3, hkey⟩
        rw [← hkey]
        exact hplaced _ hilt e3 he3
    · rw [hb_ne j hji] at he2
      exact hplaced j hjlen e2 he2
  · show ((allEntries _).map Entry.key).Nodup
    rw [List.Perm.nodup_iff (hperm.map Entry.key)]
    simp only [List.map_append, List.map_cons, List.map_nil]
    rw [List.nodup_append]
    refine ⟨hnodup, by simp, ?_⟩
    intro a ha hb
    simp only [List.mem_cons, List.not_mem_nil, or_false] at hb
    subst hb
    exact hknotin ha
  · show (putChain k v (getBucket m (hash k m.numberOfBuckets))).2 = []
    rw [hchain]

theorem WF_putRaw {m : CMap V} (hWF : WF m) (k : Key) (v : V) : WF (putRaw m k v).1 := by
  cases hget : cmap_get m k with
  | none => exact (putRaw_not_found_spec hWF v hget).1
  | some w => exact (putRaw_found_spec hWF v hget).1

theorem WF_put {m : CMap V} (hWF : WF m) (k : Key) (v : V) : WF (cmap_put m k v).1 :=
  (checkForRehash_spec (WF_putRaw hWF k v)).1

theorem get_put_self {m : CMap V} (hWF : WF m) (k : Key) (v : V) :
    cmap_get (cmap_put m k v).1 k = some v := by
  show cmap_get (checkForRehash (putRaw m k v).1) k = some v
  rw [get_checkForRehash (WF_putRaw hWF k v) k]
  exact get_putRaw_self hWF k v

theorem get_put_other {m : CMap V} (hWF : WF m) (k : Key) (v : V)
    {k2 : Key} (hk2 : k2 ≠ k) :
    cmap_get (cmap_put m k v).1 k2 = cmap_get m k2 := by
  show cmap_get (checkForRehash (putRaw m k v).1) k2 = cmap_get m k2
  rw [get_checkForRehash (WF_putRaw hWF k v) k2]
  exact get_putRaw_other hWF k v hk2

theorem put_numberOfElements {m : CMap V} (k : Key) (v : V) :
    (cmap_put m k v).1.numberOfElements = (putRaw m k v).1.numberOfElements := by
  show (checkForRehash (putRaw m k v).1).numberOfElements = _
  exact checkForRehash_numberOfElements _

/-! ### Operation-level lemmas -/

theorem numberOfBuckets_checkForRehash_le (m : CMap V) :
    m.numberOfBuckets ≤ (checkForRehash m).numberOfBuckets := by
  rw [checkForRehash_numberOfBuckets]
  split <;> omega

theorem numberOfBuckets_applyOp_le (m : CMap V) (op : Op V) :
    m.numberOfBuckets ≤ (applyOp m op).numberOfBuckets := by
  cases op with
  | put k v =>
    show m.numberOfBuckets ≤ (checkForRehash (putRaw m k v).1).numberOfBuckets
    have h1 : (putRaw m k v).1.numberOfBuckets = m.numberOfBuckets := rfl
    have h2 := numberOfBuckets_checkForRehash_le (putRaw m k v).1
    omega
  | remove k =>
    show m.numberOfBuckets ≤ (cmap_remove m k).1.numberOfBuckets
    by_cases h : containsKey k (getBucket m (hash k m.numberOfBuckets))
    · simp [cmap_remove, h]
    · simp [cmap_remove, h]

theorem numberOfBuckets_applyOps_le (m : CMap V) (ops : List (Op V)) :
    m.numberOfBuckets ≤ (applyOps m ops).numberOfBuckets := by
  induction ops generalizing m with
  | nil => exact Nat.le_refl _
  | cons op t ih => exact (numberOfBuckets_applyOp_le m op).trans (ih (applyOp m op))

theorem put_not_found_perm {m : CMap V} (hWF : WF m) {k : Key} (v : V)
    (hget : cmap_get m k = none) :
    (allEntries (cmap_put m k v).1).Perm (allEntries m ++ [⟨k, v⟩]) ∧
    (cmap_put m k v).2 = [] := by
  obtain ⟨hWFr, hperm, hnoe, hsnd⟩ := putRaw_not_found_spec hWF v hget
  exact ⟨((checkForRehash_spec hWFr).2).trans hperm, hsnd⟩

/-! ### Hash characterisation -/

theorem foldl_hashStep_mod (s : Key) : ∀ a : Nat,
    s.foldl (fun hashcode c => (hashcode * MULTIPLIER + c) % U64) (a % U64)
      = (s.foldl (fun hashcode c => hashcode * MULTIPLIER + c) a) % U64 := by
  induction s with
  | nil =>
    intro a
    rfl
  | cons c t ih =>
    intro a
    show t.foldl _ ((a % U64 * MULTIPLIER + c) % U64) = _
    have h1 : (a % U64 * MULTIPLIER + c) % U64 = (a * MULTIPLIER + c) % U64 := by
      rw [Nat.add_mod, Nat.mod_mul_mod, ← Nat.add_mod]
    rw [h1]
    exact ih (a * MULTIPLIER + c)

theorem hash_eq_polyAcc (s : Key) (n : Nat) : hash s n = polyAcc s % U64 % n := by
  unfold hash polyAcc
  have h := foldl_hashStep_mod s 0
  rw [Nat.zero_mod] at h
  rw [h]

/-! ### Traversal -/

theorem walk_none (m : CMap V) (fuel : Nat) : walk m fuel none = [] := by
  cases fuel <;> rfl

theorem cmap_next_eq {m : CMap V} (hWF : WF m) {i : Nat} {pre s : List (Entry V)} {e : Entry V}
    (hi : i < m.buckets.length)
    (hb : getBucket m i = pre ++ e :: s) :
    cmap_next m e.key = (s.head?.map Entry.key).or (firstKeyIn (m.buckets.drop (i + 1))) := by
  have hbnd : ((getBucket m i).map Entry.key).Nodup := bucket_keys_nodup hWF hi
  obtain ⟨hlen, hpos, hcount, hplaced, hnodup⟩ := hWF
  have hhash : hash e.key m.numberOfBuckets = i := hplaced i hi e (by rw [hb]; simp)
  have hpre : ∀ e2 ∈ pre, e2.key ≠ e.key := by
    intro e2 he2 hkeq
    rw [hb] at hbnd
    simp only [List.map_append, List.map_cons] at hbnd
    rcases List.nodup_append.mp hbnd with ⟨h1, h2, hdis⟩
    exact hdis (List.mem_map_of_mem Entry.key he2) (by rw [hkeq]; simp)
  have hcn : chainNext e.key (getBucket m i) = s.head?.map Entry.key := by
    rw [hb]
    exact chainNext_eq hpre
  unfold cmap_next
  dsimp only
  rw [hhash, hcn]
  cases hs : s.head? with
  | some e2 => rfl
  | none =>
    simp only [Option.map_none', Option.none_or]
    by_cases hle : m.numberOfBuckets ≤ i + 1
    · rw [if_pos hle]
      have hd : m.buckets.drop (i + 1) = [] :=
        List.drop_eq_nil_of_le (by rw [hlen]; exact hle)
      rw [hd]
      rfl
    · rw [if_neg hle]

theorem walk_spec {m : CMap V} (hWF : WF m) :
    ∀ (fuel i : Nat) (pre s : List (Entry V)) (e : Entry V),
      i < m.buckets.length →
      getBucket m i = pre ++ e :: s →
      s.length + ((m.buckets.drop (i + 1)).flatten).length < fuel →
      walk m fuel (some e.key)
        = ((e :: s).map Entry.key) ++ ((m.buckets.drop (i + 1)).flatten).map Entry.key := by
  intro fuel
  induction fuel with
  | zero =>
    intro i pre s e hi hb hlt
    omega
  | succ f ih =>
    intro i pre s e hi hb hlt
    have hnext := cmap_next_eq hWF hi hb
    show e.key :: walk m f (cmap_next m e.key) = _
    cases s with
    | cons e2 s2 =>
      rw [hnext]
      simp only [List.head?_cons, Option.map_some']
      have hor : (some e2.key).or (firstKeyIn (m.buckets.drop (i + 1))) = some e2.key := rfl
      rw [hor]
      have hfuel2 : s2.length + ((m.buckets.drop (i + 1)).flatten).length < f := by
        simp only [List.length_cons] at hlt
        omega
      rw [ih i (pre ++ [e]) s2 e2 hi (by rw [hb]; simp) hfuel2]
      simp
    | nil =>
      rw [hnext]
      simp only [List.head?_nil, Option.map_none', Option.none_or]
      cases hfk : firstKeyIn (m.buckets.drop (i + 1)) with
      | none =>
        have h1 := firstKeyIn_eq_head? (m.buckets.drop (i + 1))
        rw [hfk] at h1
        have h2 : ((m.buckets.drop (i + 1)).flatten.map Entry.key) = [] := by
          cases hcase : (m.buckets.drop (i + 1)).flatten.map Entry.key with
          | nil => rfl
          | cons x xs =>
            rw [hcase] at h1
            simp at h1
        rw [walk_none, h2]
        simp
      | some k2 =>
        obtain ⟨j, e2, s2, hj, hbj, hk2, hflj⟩ := firstKeyIn_some hfk
        have hj2 : i + 1 + j < m.buckets.length := by
          have hjd := hj
          simp only [List.length_drop] at hjd
          omega
        have hb2 : getBucket m (i + 1 + j) = e2 :: s2 := by
          show m.buckets.getD (i + 1 + j) [] = e2 :: s2
          rw [← getD_drop m.buckets (i + 1) j]
          exact hbj
        have hdd : (m.buckets.drop (i + 1)).flatten
            = (e2 :: s2) ++ ((m.buckets.drop (i + 1 + j + 1)).flatten) := by
          rw [hflj, List.drop_drop]
          have hidx : i + 1 + (j + 1) = i + 1 + j + 1 := by omega
          rw [hidx]
        have hfuel2 : s2.length + ((m.buckets.drop (i + 1 + j + 1)).flatten).length < f := by
          rw [hdd] at hlt
          simp only [List.length_nil, List.length_append, List.length_cons] at hlt
          omega
        rw [← hk2,
          ih (i + 1 + j) [] s2 e2 hj2 (by simpa using hb2) hfuel2, hdd]
        simp

theorem traversal_eq_allKeys {m : CMap V} (hWF : WF m) {fuel : Nat}
    (hfuel : m.numberOfElements < fuel) :
    walk m fuel (cmap_first m) = allKeys m := by
  cases hfk : firstKeyIn m.buckets with
  | none =>
    have h1 := firstKeyIn_eq_head? m.buckets
    rw [hfk] at h1
    have h2 : (m.buckets.flatten.map Entry.key) = [] := by
      cases hcase : m.buckets.flatten.map Entry.key with
      | nil => rfl
      | cons x xs =>
        rw [hcase] at h1
        simp at h1
    show walk m fuel (firstKeyIn m.buckets) = allKeys m
    rw [hfk, walk_none]
    exact h2.symm
  | some k =>
    obtain ⟨j, e, s, hj, hbj, hk, hflj⟩ := firstKeyIn_some hfk
    have hcnt : m.numberOfElements
        = (e :: s).length + ((m.buckets.drop (j + 1)).flatten).length := by
      rw [hWF.2.2.1]
      show (m.buckets.flatten).length = _
      rw [hflj]
      simp only [List.length_append, List.length_cons]
    have hlt : s.length + ((m.buckets.drop (j + 1)).flatten).length < fuel := by
      simp only [List.length_cons] at hcnt
      omega
    show walk m fuel (firstKeyIn m.buckets) = allKeys m
    rw [hfk, ← hk,
      walk_spec hWF fuel j [] s e hj (by
        show m.buckets.getD j [] = [] ++ e :: s
        rw [List.nil_append]
        exact hbj) hlt]
    show _ = (allEntries m).map Entry.key
    rw [show allEntries m = (e :: s) ++ (m.buckets.drop (j + 1)).flatten from hflj]
    simp

/-! ### Bulk build -/

theorem build_fold_spec : ∀ (pairs : List (Key × V)) (m : CMap V) (acc : List V),
    WF m →
    (∀ p ∈ pairs, p.1 ∉ allKeys m) →
    (pairs.map Prod.fst).Nodup →
    WF (pairs.foldl buildStep (m, acc)).1 ∧
    (pairs.foldl buildStep (m, acc)).2 = acc ∧
    (allEntries (pairs.foldl buildStep (m, acc)).1).Perm
      (allEntries m ++ pairs.map (fun p => (⟨p.1, p.2⟩ : Entry V))) := by
  intro pairs
  induction pairs with
  | nil =>
    intro m acc hWF hfresh hnd
    exact ⟨hWF, rfl, by simp⟩
  | cons p t ih =>
    intro m acc hWF hfresh hnd
    have hget : cmap_get m p.1 = none := (get_eq_none_iff hWF p.1).mpr (hfresh p (by simp))
    obtain ⟨hperm, hclean⟩ := put_not_found_perm hWF p.2 hget
    have hWF1 : WF (cmap_put m p.1 p.2).1 := WF_put hWF p.1 p.2
    have hkeysperm : (allKeys (cmap_put m p.1 p.2).1).Perm (allKeys m ++ [p.1]) := by
      have h1 := hperm.map Entry.key
      simpa [allKeys, List.map_append] using h1
    have hnd2 : (t.map Prod.fst).Nodup := (List.nodup_cons.mp (by simpa using hnd)).2
    have hp1notin : p.1 ∉ t.map Prod.fst := (List.nodup_cons.mp (by simpa using hnd)).1
    have hfresh1 : ∀ q ∈ t, q.1 ∉ allKeys (cmap_put m p.1 p.2).1 := by
      intro q hq hmem
      rw [hkeysperm.mem_iff] at hmem
      rcases List.mem_append.mp hmem with h1 | h1
      · exact hfresh q (by simp [hq]) h1
      · simp only [List.mem_cons, List.not_mem_nil, or_false] at h1
        exact hp1notin (h1 ▸ List.mem_map_of_mem Prod.fst hq)
    have hstep : buildStep (m, acc) p = ((cmap_put m p.1 p.2).1, acc) := by
      simp [buildStep, hclean]
    obtain ⟨hg1, hg2, hg3⟩ := ih (cmap_put m p.1 p.2).1 acc hWF1 hfresh1 hnd2
    refine ⟨?_, ?_, ?_⟩
    · show WF (t.foldl buildStep (buildStep (m, acc) p)).1
      rw [hstep]
      exact hg1
    · show (t.foldl buildStep (buildStep (m, acc) p)).2 = acc
      rw [hstep]
      exact hg2
    · show (allEntries (t.foldl buildStep (buildStep (m, acc) p)).1).Perm _
      rw [hstep]
      refine hg3.trans ?_
      refine (hperm.append_right _).trans ?_
      rw [List.append_assoc]
      have hfix : ([(⟨p.1, p.2⟩ : Entry V)] ++ t.map (fun q => (⟨q.1, q.2⟩ : Entry V)))
          = (p :: t).map (fun q => (⟨q.1, q.2⟩ : Entry V)) := by simp
      rw [hfix]

/-! ### Claim theorems -/

/-- C1: the claim — if the last mutation affecting key `k` was
`put(k, v)`, then `get(k)` returns `v` regardless of other puts, removes
and rehashes — fails on the source. `cmap_remove`'s non-head path
(`src/hashmap.c` lines 279-285) writes the removed node's successor over
the slot holding the predecessor node, so removing a neighbouring key
drops `k`'s entry as well. Concretely, from a fresh 2-bucket map: after
`put [1] 10`, the later operations `put [3] 30` and `remove [3]` do not
affect key `[1]` (shown by the first conjunct), yet `get [1]` afterwards
is the NULL sentinel instead of `some 10`: keys `[1]` and `[3]` share
bucket 1, `[3]`'s entry sits right behind `[1]`'s, and removing `[3]`
unlinks both. -/
theorem C1_round_trip_code_bug :
    (∀ op ∈ [Op.put ([3] : Key) (30 : Nat), Op.remove [3]], ¬ affects [1] op) ∧
    cmap_get (applyOps (applyOp (applyOps (cmap_create Nat 2) []) (Op.put [1] 10))
      [Op.put [3] 30, Op.remove [3]]) [1] = none := by
  decide

/-- C2: the claim — after every complete operation `numberOfElements`
equals the number of entries reachable by walking all bucket chains, in
particular after removing a present key whose entry is not at the head of
its chain — fails on the source at exactly that case. The non-head remove
(`src/hashmap.c` lines 279-285) unlinks the predecessor entry together
with the removed one while decrementing `numberOfElements` once: after
`create(2 buckets); put [1] 10; put [3] 30; remove [3]` the stored count
is 1 but no entry is reachable. -/
theorem C2_count_invariant_code_bug :
    (applyOps (cmap_create Nat 2)
      [Op.put [1] 10, Op.put [3] 30, Op.remove [3]]).numberOfElements = 1 ∧
    (allEntries (applyOps (cmap_create Nat 2)
      [Op.put [1] 10, Op.put [3] 30, Op.remove [3]])).length = 0 := by
  decide

/-- C3: removing an absent key changes nothing at all (the map and the
cleanup log are returned unchanged — count and every entry untouched, no
error); removing a present key with stored value `w` decrements `count()`
by exactly 1, invokes the cleanup callback exactly once, on `w` (the
matched node is the one cleaned and freed, even on the buggy non-head
path), and a subsequent `get` of the key reports not-found. -/
theorem C3_remove_semantics (m : CMap V) (k : Key) (hWF : WF m) :
    (cmap_get m k = none → cmap_remove m k = (m, [])) ∧
    (∀ w, cmap_get m k = some w →
      (cmap_remove m k).1.numberOfElements + 1 = m.numberOfElements ∧
      (cmap_remove m k).2 = [w] ∧
      cmap_get (cmap_remove m k).1 k = none) :=
  ⟨fun hget => remove_absent hget,
   fun _ hget =>
     ⟨(remove_found_spec hWF hget).1, (remove_found_spec hWF hget).2.1,
      (remove_found_spec hWF hget).2.2⟩⟩

/-- C3 witness: the two-entry one-bucket map, removing key [2] (a
non-head entry: the count still drops by exactly one, cleanup fires once
on 20, and [2] is gone afterwards). -/
theorem C3_remove_semantics_witness :
    (cmap_get exMap1 [2] = none → cmap_remove exMap1 [2] = (exMap1, [])) ∧
    (∀ w, cmap_get exMap1 [2] = some w →
      (cmap_remove exMap1 [2]).1.numberOfElements + 1 = exMap1.numberOfElements ∧
      (cmap_remove exMap1 [2]).2 = [w] ∧
      cmap_get (cmap_remove exMap1 [2]).1 [2] = none) :=
  C3_remove_semantics exMap1 [2] (by decide)

/-- C4: `put` on a key already present with old value `w` invokes cleanup
exactly once on `w`, overwrites the value in place with `v`, leaves the
count unchanged and creates no new entry (the total number of entries is
unchanged). -/
theorem C4_overwrite (m : CMap V) (k : Key) (v w : V) (hWF : WF m)
    (hget : cmap_get m k = some w) :
    (cmap_put m k v).2 = [w] ∧
    (cmap_put m k v).1.numberOfElements = m.numberOfElements ∧
    (allEntries (cmap_put m k v).1).length = (allEntries m).length ∧
    cmap_get (cmap_put m k v).1 k = some v := by
  obtain ⟨hWFr, hkeys, hnoe, hsnd⟩ := putRaw_found_spec hWF v hget
  refine ⟨hsnd, ?_, ?_, get_put_self hWF k v⟩
  · rw [put_numberOfElements, hnoe]
  · have h1 : (allEntries (cmap_put m k v).1).length
        = (allEntries (putRaw m k v).1).length :=
      ((checkForRehash_spec hWFr).2).length_eq
    have h2 : (allEntries (putRaw m k v).1).length = (allEntries m).length := by
      have h3 := congrArg List.length hkeys
      simpa [allKeys] using h3
    exact h1.trans h2

/-- C4 witness: overwriting key [2] (old value 20) with 99. -/
theorem C4_overwrite_witness :
    (cmap_put exMap1 [2] 99).2 = [20] ∧
    (cmap_put exMap1 [2] 99).1.numberOfElements = exMap1.numberOfElements ∧
    (allEntries (cmap_put exMap1 [2] 99).1).length = (allEntries exMap1).length ∧
    cmap_get (cmap_put exMap1 [2] 99).1 [2] = some 99 :=
  C4_overwrite exMap1 [2] 99 20 (by decide) (by decide)

/-- C5: the rehash trigger is exactly the strict load-factor comparison
`numberOfElements / numberOfBuckets > 3/2` (the C double comparison is the
exact rational one); on trigger the bucket count becomes
`3 * old + 1` and otherwise the map is untouched; a `put` is the raw
insertion followed by exactly this check on the post-insertion state;
`remove` never changes the bucket count; and the bucket count never
decreases over any sequence of operations. -/
theorem C5_rehash_policy (m : CMap V) (k : Key) (v : V) (ops : List (Op V))
    (hpos : 0 < m.numberOfBuckets) :
    (((m.numberOfElements : ℚ) / (m.numberOfBuckets : ℚ) > 3 / 2) ↔
      3 * m.numberOfBuckets < 2 * m.numberOfElements) ∧
    (3 * m.numberOfBuckets < 2 * m.numberOfElements →
      (checkForRehash m).numberOfBuckets = 3 * m.numberOfBuckets + 1) ∧
    (¬ 3 * m.numberOfBuckets < 2 * m.numberOfElements → checkForRehash m = m) ∧
    (cmap_put m k v).1 = checkForRehash (putRaw m k v).1 ∧
    (putRaw m k v).1.numberOfBuckets = m.numberOfBuckets ∧
    (cmap_remove m k).1.numberOfBuckets = m.numberOfBuckets ∧
    m.numberOfBuckets ≤ (applyOps m ops).numberOfBuckets := by
  have hbq : (0 : ℚ) < (m.numberOfBuckets : ℚ) := by exact_mod_cast hpos
  refine ⟨?_, ?_, ?_, rfl, rfl, ?_, numberOfBuckets_applyOps_le m ops⟩
  · rw [gt_iff_lt, div_lt_div_iff₀ (by norm_num) hbq]
    constructor
    · intro h
      have h2 : (3 : ℚ) * (m.numberOfBuckets : ℚ) < 2 * (m.numberOfElements : ℚ) := by
        linarith
      exact_mod_cast h2
    · intro h
      have h2 : (3 : ℚ) * (m.numberOfBuckets : ℚ) < 2 * (m.numberOfElements : ℚ) := by
        exact_mod_cast h
      linarith
  · intro h
    rw [checkForRehash_numberOfBuckets, if_pos h]
    omega
  · intro h
    simp [checkForRehash, h]
  · by_cases h : containsKey k (getBucket m (hash k m.numberOfBuckets)) <;>
      simp [cmap_remove, h]

/-- C5 witness: the over-threshold two-entry one-bucket map. -/
theorem C5_rehash_policy_witness :
    (((exMap1.numberOfElements : ℚ) / (exMap1.numberOfBuckets : ℚ) > 3 / 2) ↔
      3 * exMap1.numberOfBuckets < 2 * exMap1.numberOfElements) ∧
    (3 * exMap1.numberOfBuckets < 2 * exMap1.numberOfElements →
      (checkForRehash exMap1).numberOfBuckets = 3 * exMap1.numberOfBuckets + 1) ∧
    (¬ 3 * exMap1.numberOfBuckets < 2 * exMap1.numberOfElements →
      checkForRehash exMap1 = exMap1) ∧
    (cmap_put exMap1 [3] 30).1 = checkForRehash (putRaw exMap1 [3] 30).1 ∧
    (putRaw exMap1 [3] 30).1.numberOfBuckets = exMap1.numberOfBuckets ∧
    (cmap_remove exMap1 [3]).1.numberOfBuckets = exMap1.numberOfBuckets ∧
    exMap1.numberOfBuckets ≤ (applyOps exMap1 [Op.put [5] 50]).numberOfBuckets :=
  C5_rehash_policy exMap1 [3] 30 [Op.put [5] 50] (by decide)

/-- C6: when the load-factor threshold is crossed, the rehash leaves the
count unchanged, preserves every key's value (no key gained or lost — the
key multiset is a permutation), places every surviving entry in the bucket
its key hashes to under the new bucket count, and grows the bucket count
to `3 * old + 1`. -/
theorem C6_rehash_preserves (m : CMap V) (hWF : WF m)
    (htrig : 3 * m.numberOfBuckets < 2 * m.numberOfElements) :
    (checkForRehash m).numberOfElements = m.numberOfElements ∧
    (∀ k, cmap_get (checkForRehash m) k = cmap_get m k) ∧
    (allKeys (checkForRehash m)).Perm (allKeys m) ∧
    (∀ i < (checkForRehash m).buckets.length,
        ∀ e ∈ getBucket (checkForRehash m) i,
          hash e.key (checkForRehash m).numberOfBuckets = i) ∧
    (checkForRehash m).numberOfBuckets = 3 * m.numberOfBuckets + 1 := by
  obtain ⟨hWF2, hperm⟩ := checkForRehash_spec hWF
  refine ⟨checkForRehash_numberOfElements m, fun k => get_checkForRehash hWF k,
    hperm.map Entry.key, hWF2.2.2.2.1, ?_⟩
  rw [checkForRehash_numberOfBuckets, if_pos htrig]
  omega

/-- C6 witness: the over-threshold two-entry one-bucket map. -/
theorem C6_rehash_preserves_witness :
    (checkForRehash exMap1).numberOfElements = exMap1.numberOfElements ∧
    (∀ k, cmap_get (checkForRehash exMap1) k = cmap_get exMap1 k) ∧
    (allKeys (checkForRehash exMap1)).Perm (allKeys exMap1) ∧
    (∀ i < (checkForRehash exMap1).buckets.length,
        ∀ e ∈ getBucket (checkForRehash exMap1) i,
          hash e.key (checkForRehash exMap1).numberOfBuckets = i) ∧
    (checkForRehash exMap1).numberOfBuckets = 3 * exMap1.numberOfBuckets + 1 :=
  C6_rehash_preserves exMap1 (by decide) (by decide)

/-- C7: an un-mutated traversal started with `first` and continued with
`next` visits exactly the keys present at the start, each exactly once
(the visited list is the key list of the map, which has no duplicates),
and stops at the sentinel: with any fuel exceeding the element count the
walk produces exactly the element-count many keys. On an empty map
`first` immediately yields the sentinel. -/
theorem C7_iteration (m : CMap V) (fuel : Nat) (hWF : WF m)
    (hfuel : m.numberOfElements < fuel) :
    walk m fuel (cmap_first m) = allKeys m ∧
    (allKeys m).Nodup ∧
    (allEntries m = [] → cmap_first m = none) := by
  refine ⟨traversal_eq_allKeys hWF hfuel, hWF.2.2.2.2, ?_⟩
  intro hnil
  show firstKeyIn m.buckets = none
  rw [firstKeyIn_eq_head?]
  have h2 : m.buckets.flatten = [] := hnil
  rw [h2]
  rfl

/-- C7 witness: the two-bucket two-entry map traversed with spare fuel. -/
theorem C7_iteration_witness :
    walk exMap2 5 (cmap_first exMap2) = allKeys exMap2 ∧
    (allKeys exMap2).Nodup ∧
    (allEntries exMap2 = [] → cmap_first exMap2 = none) :=
  C7_iteration exMap2 5 (by decide) (by decide)

/-- C8: the hash of a string is the 64-bit wrap-around fold
`hashcode * 2630849305 + byte` reduced modulo the bucket count, its result
lies in `[0, n-1]` for every positive bucket count, it is deterministic
(equal arguments give equal indices), and it is case-sensitive: the
character codes of "ZEL" and "zel" hash to different buckets out of
199. -/
theorem C8_hash (s t : Key) (n n2 : Nat) (hpos : 0 < n) :
    hash s n < n ∧
    hash s n = polyAcc s % U64 % n ∧
    (s = t → n = n2 → hash s n = hash t n2) ∧
    hash [90, 69, 76] 199 ≠ hash [122, 101, 108] 199 := by
  refine ⟨hash_lt s hpos, hash_eq_polyAcc s n, ?_, by decide⟩
  rintro rfl rfl
  rfl

/-- C8 witness: a concrete string and bucket count. -/
theorem C8_hash_witness :
    hash [65] 7 < 7 ∧
    hash [65] 7 = polyAcc [65] % U64 % 7 ∧
    (([65] : Key) = [65] → 7 = 7 → hash [65] 7 = hash [65] 7) ∧
    hash [90, 69, 76] 199 ≠ hash [122, 101, 108] 199 :=
  C8_hash [65] [65] 7 7 (by decide)

/-- C9: inserting distinct keys into a fresh map invokes no cleanup during
the inserts, and disposing the map then invokes the cleanup callback
exactly once per inserted pair — the cleanup list is a permutation of the
inserted values, of length the number of keys. -/
theorem C9_dispose (hint : Nat) (pairs : List (Key × V))
    (hnd : (pairs.map Prod.fst).Nodup) :
    (buildMap V hint pairs).2 = [] ∧
    (cmap_dispose (buildMap V hint pairs).1).length = pairs.length ∧
    (cmap_dispose (buildMap V hint pairs).1).Perm (pairs.map Prod.snd) := by
  obtain ⟨hWF2, hacc, hperm⟩ := build_fold_spec pairs (cmap_create V hint) []
    (WF_create V hint)
    (by
      intro p hp
      simp [allKeys, allEntries, cmap_create, flatten_replicate_nil])
    hnd
  have h0 : allEntries (cmap_create V hint) = [] := by
    simp [allEntries, cmap_create, flatten_replicate_nil]
  rw [h0] at hperm
  simp only [List.nil_append] at hperm
  have hperm2 : (cmap_dispose (buildMap V hint pairs).1).Perm (pairs.map Prod.snd) := by
    show ((allEntries (buildMap V hint pairs).1).map Entry.value).Perm _
    have h1 := hperm.map Entry.value
    rw [List.map_map] at h1
    exact h1
  exact ⟨hacc, hperm2.length_eq.trans (by rw [List.length_map]), hperm2⟩

/-- C9 witness: three distinct keys into a one-bucket map (the build
triggers rehashes along the way). -/
theorem C9_dispose_witness :
    (buildMap Nat 1 [([1], 10), ([2], 20), ([3], 30)]).2 = [] ∧
    (cmap_dispose (buildMap Nat 1 [([1], 10), ([2], 20), ([3], 30)]).1).length
      = ([([1], 10), ([2], 20), ([3], 30)] : List (Key × Nat)).length ∧
    (cmap_dispose (buildMap Nat 1 [([1], 10), ([2], 20), ([3], 30)]).1).Perm
      (([([1], 10), ([2], 20), ([3], 30)] : List (Key × Nat)).map Prod.snd) :=
  C9_dispose 1 [([1], 10), ([2], 20), ([3], 30)] (by decide)

/-- C10: the implicit frame property — for distinct keys both present,
`remove(k1)` leaves `k2` present with the same value, including when
`k2`'s entry is the immediate predecessor of `k1`'s entry — fails on the
source exactly in the predecessor case. `cmap_remove`'s non-head path
(`src/hashmap.c` lines 279-285) assigns through `prevNodePointer`, the
slot holding `k2`'s (predecessor) entry, so that entry is unlinked
together with `k1`'s. Concretely: from a fresh 2-bucket map, after
`put [1] 10; put [3] 30` both keys are present ([3]'s entry directly
behind [1]'s in bucket 1), yet after `remove [3]` a `get [1]` returns the
NULL sentinel instead of `some 10`. -/
theorem C10_remove_frame_code_bug :
    cmap_get (applyOps (cmap_create Nat 2) [Op.put [1] 10, Op.put [3] 30]) [1] = some 10 ∧
    cmap_get (applyOps (cmap_create Nat 2) [Op.put [1] 10, Op.put [3] 30]) [3] = some 30 ∧
    cmap_get (cmap_remove
      (applyOps (cmap_create Nat 2) [Op.put [1] 10, Op.put [3] 30]) [3]).1 [1] = none := by
  decide

end CMapC
